import Mathlib

/-!
Shallow embedding of the `roles-calc` authorization engine (`src/index.ts`).

Roles are JavaScript strings, modelled as lists of characters.  The engine
state consists of the user-declared inheritance edges (child role ↦ set of
parent roles, kept in declaration order) and a memoization cache for the
flattened parent-role sets.  The closure computation `calcParentRolesSet`
is the generation-bounded breadth-first fixed-point loop of
`_calcParentRolesSet`; it fails with the depth-limit error when the frontier
is still non-empty after `INHERITANCE_DEPTH_LIMIT + 1` passes.
-/

namespace RolesCalc

abbrev Role : Type := List Char

/-- Configuration of a `RolesCalc` instance, after constructor normalization:
    `alwaysAllow` roles, the `resourceActions` and `writeExtendsRead` flags and
    the single-character `resourceActionSeparator`. -/
structure Config where
  alwaysAllow : List Role
  resourceActions : Bool
  writeExtendsRead : Bool
  sep : Char
deriving Repr, DecidableEq

/-- Characters with a special meaning somewhere in a JavaScript regular
    expression, as a bare atom or inside a negated character class.  The
    constructor interpolates the separator into `^([^sep]+)sep([^sep]+)$`
    without escaping it, so only a separator outside this list is guaranteed
    to stand for itself in the constructed pattern. -/
def regexSpecialChars : List Char :=
  ['\\', '^', '$', '.', '|', '?', '*', '+', '(', ')', '[', ']', '{', '}']

/-- Separators whose unescaped interpolation makes
    `^([^sep]+)sep([^sep]+)$` syntactically invalid, so `new RegExp` throws
    inside the constructor: an unbalanced group opener or closer, an
    unterminated character class, or a dangling escape. -/
def regexBreakingSeps : List Char := ['(', ')', '[', '\\']

/-- The length of a string as JavaScript's `.length` measures it: the number
    of UTF-16 code units, counting a character beyond the basic multilingual
    plane as two. -/
def utf16Length (s : List Char) : Nat :=
  (s.map (fun c => if c.val < 0x10000 then 1 else 2)).sum

/-- The constructor: `resourceActionSeparator` must be exactly one UTF-16
    code unit (an astral character has JavaScript length 2 and throws), it
    defaults to a colon, and building the RegExp itself throws when the
    unescaped separator breaks the pattern's syntax. -/
def mkRolesCalc (alwaysAllow : List Role) (resourceActions writeExtendsRead : Bool)
    (resourceActionSeparator : Option (List Char)) : Except String Config :=
  match resourceActionSeparator with
  | none => Except.ok ⟨alwaysAllow, resourceActions, writeExtendsRead, ':'⟩
  | some s =>
    if utf16Length s ≠ 1 then
      Except.error "resourceActionSeparator must be a single character"
    else
      match s with
      | [c] =>
        if c ∈ regexBreakingSeps then Except.error "Invalid regular expression"
        else Except.ok ⟨alwaysAllow, resourceActions, writeExtendsRead, c⟩
      | _ => Except.error "resourceActionSeparator must be a single character"

/-- Split a character list at the first occurrence of `sep`:
    returns the (sep-free) prefix before it and everything after it. -/
def splitAtSep (sep : Char) : List Char → Option (List Char × List Char)
  | [] => none
  | c :: cs =>
    if c = sep then some ([], cs)
    else
      match splitAtSep sep cs with
      | some (r, a) => some (c :: r, a)
      | none => none

/-- The literal meaning of the resource/action pattern
    `^([^sep]+)sep([^sep]+)$`: success exactly on `resource ++ sep ++ action`
    with both segments non-empty and free of `sep`.  This is the decomposition
    the constructed RegExp performs whenever the separator is a regex-literal
    character (one outside `regexSpecialChars`); a metacharacter separator is
    interpolated unescaped and follows the regex grammar instead (see
    `jsDotMatchResourceAction` for the dot). -/
def matchResourceAction (sep : Char) (role : Role) : Option (Role × Role) :=
  match splitAtSep sep role with
  | some (r, a) => if r ≠ [] ∧ a ≠ [] ∧ sep ∉ a then some (r, a) else none
  | none => none

/-- Every way of splitting a string around a single character:
    all triples `(r, m, a)` with `s = r ++ m :: a`, in order of growing `r`. -/
def splitsAround : List Char → List (List Char × Char × List Char)
  | [] => []
  | c :: cs =>
    ([], c, cs) :: (splitsAround cs).map (fun t => (c :: t.1, t.2.1, t.2.2))

/-- JavaScript's `.` atom: it matches every character except the four line
    terminators. -/
def jsDotMatches (c : Char) : Bool :=
  ¬ (c = '\n' ∨ c = '\r' ∨ c = '\u2028' ∨ c = '\u2029')

/-- The decomposition the RegExp built by the constructor performs when the
    separator is the dot: the unescaped interpolation yields the pattern
    `^([^.]+).([^.]+)$`, whose middle atom matches any character (not just a
    dot); with a greedy first group, the match keeps the longest admissible
    first segment. -/
def jsDotMatchResourceAction (s : List Char) : Option (List Char × List Char) :=
  (((splitsAround s).filter (fun t =>
      t.1 ≠ [] ∧ t.2.2 ≠ [] ∧ '.' ∉ t.1 ∧ '.' ∉ t.2.2 ∧
        jsDotMatches t.2.1)).getLast?).map
    (fun t => (t.1, t.2.2))

/-- `_toResourceAndAction`: decompose a role into its resource and action
    components; always "not compound" when resource/action mode is off. -/
def toResourceAndAction (cfg : Config) (role : Role) : Option (Role × Role) :=
  if cfg.resourceActions then matchResourceAction cfg.sep role else none

def readAction : Role := "read".toList

def writeAction : Role := "write".toList

/-- `_explodeResourceActionRole`: the roles immediately implied by a role's
    compound structure — the bare resource, plus `resource<sep>write` when the
    action is `read` and `writeExtendsRead` is on. -/
def explodeResourceActionRole (cfg : Config) (role : Role) : List Role :=
  match toResourceAndAction cfg role with
  | none => []
  | some (resource, action) =>
    resource ::
      (if cfg.writeExtendsRead ∧ action = readAction then
        [resource ++ cfg.sep :: writeAction]
      else [])

/-- The user-declared inheritance edges `(childRole, parentRole)`, in
    declaration order (the contents of `_childRolesToParentRoles`). -/
abbrev Graph : Type := List (Role × Role)

/-- The parent roles directly declared for `child`
    (`_childRolesToParentRoles.get(child)`), in declaration order. -/
def parentsOf (g : Graph) (child : Role) : List Role :=
  (g.filter (fun e => e.1 = child)).map Prod.snd

/-- One `rc.role(parentRole).extends(childRole)` declaration for a single
    pair: the edge is added only if not already present. -/
def addEdge (g : Graph) (child parent : Role) : Graph :=
  if (child, parent) ∈ g then g else g ++ [(child, parent)]

def INHERITANCE_DEPTH_LIMIT : Nat := 20

def depthLimitError : String :=
  "could not flatten roles: inheritance depth of " ++
    toString INHERITANCE_DEPTH_LIMIT ++ " levels was exceeded"

/-- The candidate roles produced from one frontier member `addedRole` inside a
    pass of `_calcParentRolesSet`: its resource/action explosion, its declared
    parent roles, and — when the queried role has an action and a declared
    parent is not compound — the cross-inferred `parent<sep>action` role. -/
def candidates (cfg : Config) (g : Graph) (action : Option Role) (addedRole : Role) :
    List Role :=
  explodeResourceActionRole cfg addedRole ++
    (parentsOf g addedRole).flatMap (fun parentRole =>
      parentRole ::
        match action with
        | some a =>
          if (toResourceAndAction cfg parentRole).isNone then
            [parentRole ++ cfg.sep :: a]
          else []
        | none => [])

/-- `addIfNotPresent` from `_calcParentRolesSet`: the state is the pair of the
    accumulated `roles` and the `addedRolesThisPass` frontier being built. -/
def addIfNotPresent (st : List Role × List Role) (r : Role) : List Role × List Role :=
  if r ∈ st.1 then st else (st.1 ++ [r], st.2 ++ [r])

/-- One whole pass of the `while` loop: process every frontier member,
    accumulating new roles and the next generation's frontier. -/
def passFold (cfg : Config) (g : Graph) (action : Option Role) (frontier : List Role)
    (st : List Role × List Role) : List Role × List Role :=
  frontier.foldl
    (fun st addedRole => (candidates cfg g action addedRole).foldl addIfNotPresent st) st

/-- The `while (addedRoles.size)` loop of `_calcParentRolesSet`, with the
    remaining `sanityCount` as fuel: a pass with a non-empty frontier and no
    fuel left throws the depth-limit error. -/
def calcLoop (cfg : Config) (g : Graph) (action : Option Role) :
    Nat → List Role → List Role → Except String (List Role)
  | _, roles, [] => Except.ok roles
  | 0, _, _ :: _ => Except.error depthLimitError
  | fuel + 1, roles, f :: fs =>
    let st := passFold cfg g action (f :: fs) (roles, [])
    calcLoop cfg g action fuel st.1 st.2

/-- `new Set(...)` applied to a role list: deduplicate, keeping the first
    occurrence of each role. -/
def rolesToSet (roles : List Role) : List Role :=
  go [] roles
where
  go (seen : List Role) : List Role → List Role
    | [] => []
    | x :: xs => if x ∈ seen then go seen xs else x :: go (x :: seen) xs

/-- The action component of the queried role
    (`this._toResourceAndAction(role).action`), as used by the closure loop. -/
def queryAction (cfg : Config) (role : Role) : Option Role :=
  (toResourceAndAction cfg role).map Prod.snd

/-- `new Set(this._alwaysAllow)` followed by `roles.add(role)`: the initial
    contents of both `roles` and `addedRoles` in `_calcParentRolesSet`. -/
def initRoles (cfg : Config) (role : Role) : List Role :=
  let aa := rolesToSet cfg.alwaysAllow
  if role ∈ aa then aa else aa ++ [role]

/-- `_calcParentRolesSet`: breadth-first generation-bounded closure of the
    always-allow set plus the queried role, removing the role itself at the
    end. -/
def calcParentRolesSet (cfg : Config) (g : Graph) (role : Role) :
    Except String (List Role) :=
  match calcLoop cfg g (queryAction cfg role) (INHERITANCE_DEPTH_LIMIT + 1)
      (initRoles cfg role) (initRoles cfg role) with
  | Except.ok roles => Except.ok (roles.erase role)
  | Except.error e => Except.error e

/-- `getParentRolesSet`: the (pure) flattened set of roles that extend the
    given role. -/
def getParentRolesSet (cfg : Config) (g : Graph) (role : Role) :
    Except String (List Role) :=
  calcParentRolesSet cfg g role

/-- `_isAuthorized`: a single required role is satisfied when some actual role
    equals it exactly or belongs to its flattened parent-role set. -/
def isAuthorizedSingle (cfg : Config) (g : Graph) (required : Role)
    (actual : List Role) : Except String Bool :=
  match getParentRolesSet cfg g required with
  | Except.ok parentRoles =>
    Except.ok (actual.any (fun actualRole =>
      actualRole = required ∨ actualRole ∈ parentRoles))
  | Except.error e => Except.error e

/-- `isAuthorized` with a collection of required roles: every member must be
    individually satisfied (short-circuiting on the first failure). -/
def isAuthorizedMulti (cfg : Config) (g : Graph) :
    List Role → List Role → Except String Bool
  | [], _ => Except.ok true
  | required :: rest, actual =>
    match isAuthorizedSingle cfg g required actual with
    | Except.ok true => isAuthorizedMulti cfg g rest actual
    | Except.ok false => Except.ok false
    | Except.error e => Except.error e

/-- The loop body of `pruneRedundantRolesSet`: `kept` holds the already
    visited surviving roles, `rest` the roles not yet visited; the current
    role is dropped when some member of its parent-role set is still present
    in the pruned collection. -/
def pruneAux (cfg : Config) (g : Graph) :
    List Role → List Role → Except String (List Role)
  | kept, [] => Except.ok kept
  | kept, childRole :: rest =>
    match getParentRolesSet cfg g childRole with
    | Except.ok parentRoles =>
      if parentRoles.any (fun p => p ∈ kept ++ childRole :: rest) then
        pruneAux cfg g kept rest
      else
        pruneAux cfg g (kept ++ [childRole]) rest
    | Except.error e => Except.error e

/-- `pruneRedundantRoles`: deduplicate the input and drop every role whose
    parent-role set meets the rest of the pruned collection. -/
def pruneRedundantRoles (cfg : Config) (g : Graph) (roles : List Role) :
    Except String (List Role) :=
  pruneAux cfg g [] (rolesToSet roles)

/-- The mutable state of a `RolesCalc` instance: the declared edges and the
    memoized flattened parent-role sets (`_childRolesToParentRolesFlattened`). -/
structure EngineState where
  graph : Graph
  cache : List (Role × List Role)
deriving Repr, DecidableEq

def cacheLookup (cache : List (Role × List Role)) (role : Role) :
    Option (List Role) :=
  match cache.find? (fun e => e.1 = role) with
  | some e => some e.2
  | none => none

/-- `_getParentRolesSet`: consult the cache; on a miss compute the closure and
    store it — unless the computation throws, in which case nothing is
    stored. -/
def getParentRolesSetCached (cfg : Config) (st : EngineState) (role : Role) :
    Except String (List Role) × EngineState :=
  match cacheLookup st.cache role with
  | some parentRoles => (Except.ok parentRoles, st)
  | none =>
    match calcParentRolesSet cfg st.graph role with
    | Except.ok parentRoles =>
      (Except.ok parentRoles, ⟨st.graph, (role, parentRoles) :: st.cache⟩)
    | Except.error e => (Except.error e, st)

/-- `rc.role(parent).extends(child)` on the full engine state: a genuinely new
    edge clears the whole flattened cache; re-declaring an edge is a no-op. -/
def declareEdge (st : EngineState) (child parent : Role) : EngineState :=
  if (child, parent) ∈ st.graph then st
  else ⟨st.graph ++ [(child, parent)], []⟩

/-- Least-fixed-point reference closure: everything derivable from the base
    set by repeatedly applying a candidate-producing rule to members already
    obtained. -/
inductive Reach (cand : Role → List Role) (base : List Role) : Role → Prop
  | base {x : Role} : x ∈ base → Reach cand base x
  | step {r x : Role} : Reach cand base r → x ∈ cand r → Reach cand base x

/-- The reference closure rules with the cross-inference rule applied
    regardless of whether the already-obtained role `r` is itself compound:
    (a) the two resource/action generalization rules, (b) the declared
    parents of `r`, (c) `p<sep>A` for every plain declared parent `p` of `r`
    when the query has action `A`. -/
def refCandidates (cfg : Config) (g : Graph) (qAction : Option Role) (r : Role) :
    List Role :=
  explodeResourceActionRole cfg r ++ parentsOf g r ++
    (match qAction with
     | some a =>
       ((parentsOf g r).filter (fun p => (toResourceAndAction cfg p).isNone)).map
         (fun p => p ++ cfg.sep :: a)
     | none => [])

/-- The reference closure rules exactly as claim C1 words them: the
    cross-inference rule (c) additionally requires the already-obtained role
    `r` to be plain (non-compound). -/
def refCandidatesSpecC1 (cfg : Config) (g : Graph) (qAction : Option Role) (r : Role) :
    List Role :=
  explodeResourceActionRole cfg r ++ parentsOf g r ++
    (match qAction with
     | some a =>
       if (toResourceAndAction cfg r).isNone then
         ((parentsOf g r).filter (fun p => (toResourceAndAction cfg p).isNone)).map
           (fun p => p ++ cfg.sep :: a)
       else []
     | none => [])

/-- The pruning loop as the spec words it: the current candidate `c` is
    removed when its closure contains some role *other* than `c` that is
    still present in the pruned collection. -/
def pruneSpecAux (cfg : Config) (g : Graph) :
    List Role → List Role → Except String (List Role)
  | kept, [] => Except.ok kept
  | kept, c :: rest =>
    match getParentRolesSet cfg g c with
    | Except.ok closure =>
      if closure.any (fun p => p ∈ (kept ++ c :: rest).erase c) then
        pruneSpecAux cfg g kept rest
      else pruneSpecAux cfg g (kept ++ [c]) rest
    | Except.error e => Except.error e

/-- `pruneRedundantRoles` as the spec describes it (deduplicate, then drop
    each candidate whose closure contains some other role still present). -/
def pruneRedundantRolesSpec (cfg : Config) (g : Graph) (roles : List Role) :
    Except String (List Role) :=
  pruneSpecAux cfg g [] (rolesToSet roles)

/-- The configuration produced by `new RolesCalc()` with no options. -/
def defaultConfig : Config := ⟨[], false, false, ':'⟩

/-- A generic linear chain of `n` extension edges:
    `role(roleOf (i+1)).extends(roleOf i)` for each `i < n`. -/
def chainOf (roleOf : Nat → Role) (n : Nat) : Graph :=
  (List.range n).map (fun i => (roleOf i, roleOf (i + 1)))

/-- The roles `roleOf 0 .. roleOf (m-1)` accumulated by the closure loop on a
    chain. -/
def chainPre (roleOf : Nat → Role) (m : Nat) : List Role :=
  (List.range m).map roleOf

/-- Concrete distinct single-character role names for chain instances. -/
def lvl (i : Nat) : Role := [Char.ofNat (97 + i)]

def chain (n : Nat) : Graph := chainOf lvl n

/-- Configuration with `writeExtendsRead` enabled but `resourceActions` left
    at its default (off). -/
def cfgWriteOnly : Config := ⟨[], false, true, ':'⟩

/-- Configuration with both `resourceActions` and `writeExtendsRead` on. -/
def cfgResourceWrite : Config := ⟨[], true, true, ':'⟩

/-- Configuration with `resourceActions` on and `writeExtendsRead` off. -/
def cfgResourceOnly : Config := ⟨[], true, false, ':'⟩

/-- Configuration whose `alwaysAllow` set holds the single role `admin`. -/
def cfgAdmin : Config := ⟨["admin".toList], false, false, ':'⟩

/-- The graph `role('manager').extends('employee')`. -/
def gManagerEmployee : Graph := addEdge [] "employee".toList "manager".toList

/-- Input and output of the pruning example of claim C6. -/
def pruneInputC6 : List Role :=
  ["employee".toList, "manager".toList, "owner-unrelated".toList]

def pruneOutputC6 : List Role := ["manager".toList, "owner-unrelated".toList]

/-- Two mutually redundant roles: `a` extends `b` and `b` extends `a`. -/
def gMutual : Graph :=
  addEdge (addEdge [] "a".toList "b".toList) "b".toList "a".toList

/-- The graph `role('p').extends('x:y')`: the plain role `p` extends the
    compound role `x:y`. -/
def gCrossC1 : Graph := addEdge [] "x:y".toList "p".toList

/-- The closure the code computes for the query `x:y` on `gCrossC1` with
    resource/action mode enabled. -/
def closureC1 : List Role := ["x".toList, "p".toList, "p:y".toList]

/-- The set closed under claim C1's reference rules for that query. -/
def specClosedC1 : List Role := ["x:y".toList, "x".toList, "p".toList]

end RolesCalc

namespace RolesCalc

/-! ## Separator matching -/

theorem splitAtSep_append (sep : Char) (a : List Char) :
    ∀ r : List Char, sep ∉ r → splitAtSep sep (r ++ sep :: a) = some (r, a)
  | [], _ => by simp [splitAtSep]
  | c :: r, h => by
    have hc : ¬ c = sep := fun hcs => h (by simp [hcs])
    have ih := splitAtSep_append sep a r (fun hm => h (List.mem_cons_of_mem _ hm))
    simp [splitAtSep, hc, ih]

theorem splitAtSep_some (sep : Char) :
    ∀ (s : List Char) {r a : List Char}, splitAtSep sep s = some (r, a) →
      s = r ++ sep :: a ∧ sep ∉ r
  | [], r, a, h => by simp [splitAtSep] at h
  | c :: cs, r, a, h => by
    by_cases hc : c = sep
    · simp [splitAtSep, hc] at h
      obtain ⟨hr, ha⟩ := h
      subst hr; subst ha; subst hc
      simp
    · rw [splitAtSep, if_neg hc] at h
      cases heq : splitAtSep sep cs with
      | none => rw [heq] at h; simp at h
      | some pair =>
        obtain ⟨r', a'⟩ := pair
        rw [heq] at h
        simp at h
        obtain ⟨hr, ha⟩ := h
        obtain ⟨hs, hns⟩ := splitAtSep_some sep cs heq
        subst hr; subst ha; subst hs
        refine ⟨by simp, ?_⟩
        intro hm
        rcases List.mem_cons.mp hm with h1 | h2
        · exact hc h1.symm
        · exact hns h2

theorem matchResourceAction_eq_some (sep : Char) (s r a : List Char) :
    matchResourceAction sep s = some (r, a) ↔
      (s = r ++ sep :: a ∧ r ≠ [] ∧ a ≠ [] ∧ sep ∉ r ∧ sep ∉ a) := by
  unfold matchResourceAction
  constructor
  · intro h
    cases heq : splitAtSep sep s with
    | none => rw [heq] at h; simp at h
    | some pair =>
      obtain ⟨r', a'⟩ := pair
      rw [heq] at h
      dsimp only at h
      by_cases hcond : r' ≠ [] ∧ a' ≠ [] ∧ sep ∉ a'
      · rw [if_pos hcond] at h
        simp at h
        obtain ⟨hr, ha⟩ := h
        subst hr; subst ha
        obtain ⟨hs, hnr⟩ := splitAtSep_some sep s heq
        exact ⟨hs, hcond.1, hcond.2.1, hnr, hcond.2.2⟩
      · rw [if_neg hcond] at h
        simp at h
  · rintro ⟨hs, hr, ha, hnr, hna⟩
    subst hs
    rw [splitAtSep_append sep a r hnr]
    simp [hr, ha, hna]

/-! ## Deduplication -/

theorem rolesToSet_go_mem (x : Role) :
    ∀ (l seen : List Role), x ∈ rolesToSet.go seen l ↔ x ∈ l ∧ x ∉ seen
  | [], seen => by simp [rolesToSet.go]
  | y :: l, seen => by
    by_cases hy : y ∈ seen
    · rw [rolesToSet.go, if_pos hy, rolesToSet_go_mem x l seen]
      constructor
      · rintro ⟨h1, h2⟩; exact ⟨List.mem_cons_of_mem _ h1, h2⟩
      · rintro ⟨h1, h2⟩
        rcases List.mem_cons.mp h1 with h3 | h3
        · exact absurd (h3 ▸ hy) h2
        · exact ⟨h3, h2⟩
    · rw [rolesToSet.go, if_neg hy]
      simp only [List.mem_cons, rolesToSet_go_mem x l (y :: seen)]
      constructor
      · rintro (h1 | ⟨h2, h3⟩)
        · subst h1; exact ⟨Or.inl rfl, hy⟩
        · exact ⟨Or.inr h2, fun hm => h3 (Or.inr hm)⟩
      · rintro ⟨h1 | h1, h2⟩
        · exact Or.inl h1
        · by_cases hxy : x = y
          · exact Or.inl hxy
          · exact Or.inr ⟨h1, fun hm => hm.elim hxy h2⟩

theorem rolesToSet_mem (x : Role) (l : List Role) :
    x ∈ rolesToSet l ↔ x ∈ l := by
  rw [rolesToSet, rolesToSet_go_mem]
  simp

theorem rolesToSet_go_nodup :
    ∀ (l seen : List Role), (rolesToSet.go seen l).Nodup
  | [], seen => by simp [rolesToSet.go]
  | y :: l, seen => by
    by_cases hy : y ∈ seen
    · rw [rolesToSet.go, if_pos hy]
      exact rolesToSet_go_nodup l seen
    · rw [rolesToSet.go, if_neg hy]
      refine List.Nodup.cons ?_ (rolesToSet_go_nodup l (y :: seen))
      intro hm
      exact ((rolesToSet_go_mem y l (y :: seen)).mp hm).2 (List.mem_cons_self _ _)

theorem rolesToSet_nodup (l : List Role) : (rolesToSet l).Nodup :=
  rolesToSet_go_nodup l []

theorem rolesToSet_go_sublist :
    ∀ (l seen : List Role), (rolesToSet.go seen l).Sublist l
  | [], _ => by simp [rolesToSet.go]
  | y :: l, seen => by
    by_cases hy : y ∈ seen
    · rw [rolesToSet.go, if_pos hy]
      exact (rolesToSet_go_sublist l seen).cons y
    · rw [rolesToSet.go, if_neg hy]
      exact (rolesToSet_go_sublist l (y :: seen)).cons₂ y

theorem rolesToSet_sublist (l : List Role) : (rolesToSet l).Sublist l :=
  rolesToSet_go_sublist l []

end RolesCalc

namespace RolesCalc

/-! ## The inner `addIfNotPresent` fold -/

theorem addFold_shape :
    ∀ (rs : List Role) (st : List Role × List Role),
      ∃ d, rs.foldl addIfNotPresent st = (st.1 ++ d, st.2 ++ d)
  | [], st => ⟨[], by simp⟩
  | r :: rs, st => by
    rw [List.foldl_cons]
    by_cases h : r ∈ st.1
    · obtain ⟨d, hd⟩ := addFold_shape rs st
      exact ⟨d, by rw [addIfNotPresent, if_pos h]; exact hd⟩
    · obtain ⟨d, hd⟩ := addFold_shape rs (st.1 ++ [r], st.2 ++ [r])
      refine ⟨r :: d, ?_⟩
      rw [addIfNotPresent, if_neg h, hd]
      simp

theorem addFold_mem (x : Role) :
    ∀ (rs : List Role) (st : List Role × List Role),
      x ∈ (rs.foldl addIfNotPresent st).1 ↔ x ∈ st.1 ∨ x ∈ rs
  | [], st => by simp
  | r :: rs, st => by
    rw [List.foldl_cons]
    by_cases h : r ∈ st.1
    · rw [addIfNotPresent, if_pos h, addFold_mem x rs st]
      constructor
      · rintro (h1 | h1)
        · exact Or.inl h1
        · exact Or.inr (List.mem_cons_of_mem _ h1)
      · rintro (h1 | h1)
        · exact Or.inl h1
        · rcases List.mem_cons.mp h1 with h2 | h2
          · exact Or.inl (h2 ▸ h)
          · exact Or.inr h2
    · rw [addIfNotPresent, if_neg h, addFold_mem x rs (st.1 ++ [r], st.2 ++ [r])]
      simp only [List.mem_append, List.mem_singleton, List.mem_cons]
      tauto

theorem addFold_nodup :
    ∀ (rs : List Role) (st : List Role × List Role),
      st.1.Nodup → ((rs.foldl addIfNotPresent st).1).Nodup
  | [], _, h => h
  | r :: rs, st, h => by
    rw [List.foldl_cons]
    by_cases hr : r ∈ st.1
    · rw [addIfNotPresent, if_pos hr]
      exact addFold_nodup rs st h
    · rw [addIfNotPresent, if_neg hr]
      refine addFold_nodup rs (st.1 ++ [r], st.2 ++ [r]) ?_
      simpa [List.nodup_append] using ⟨h, hr⟩

/-! ## One pass of the closure loop -/

theorem passFold_shape (cfg : Config) (g : Graph) (action : Option Role) :
    ∀ (frontier : List Role) (st : List Role × List Role),
      ∃ d, passFold cfg g action frontier st = (st.1 ++ d, st.2 ++ d)
  | [], st => ⟨[], by simp [passFold]⟩
  | f :: fs, st => by
    rw [passFold, List.foldl_cons]
    obtain ⟨d1, hd1⟩ := addFold_shape (candidates cfg g action f) st
    obtain ⟨d2, hd2⟩ := passFold_shape cfg g action fs ((candidates cfg g action f).foldl addIfNotPresent st)
    refine ⟨d1 ++ d2, ?_⟩
    rw [passFold] at hd2
    rw [hd2, hd1]
    simp

theorem passFold_mem (cfg : Config) (g : Graph) (action : Option Role) (x : Role) :
    ∀ (frontier : List Role) (st : List Role × List Role),
      x ∈ (passFold cfg g action frontier st).1 ↔
        x ∈ st.1 ∨ ∃ r ∈ frontier, x ∈ candidates cfg g action r
  | [], st => by simp [passFold]
  | f :: fs, st => by
    rw [passFold, List.foldl_cons]
    have ih := passFold_mem cfg g action x fs ((candidates cfg g action f).foldl addIfNotPresent st)
    rw [passFold] at ih
    rw [ih, addFold_mem]
    simp only [List.mem_cons]
    constructor
    · rintro ((h1 | h1) | ⟨r, h2, h3⟩)
      · exact Or.inl h1
      · exact Or.inr ⟨f, Or.inl rfl, h1⟩
      · exact Or.inr ⟨r, Or.inr h2, h3⟩
    · rintro (h1 | ⟨r, h2 | h2, h3⟩)
      · exact Or.inl (Or.inl h1)
      · exact Or.inl (Or.inr (h2 ▸ h3))
      · exact Or.inr ⟨r, h2, h3⟩

theorem passFold_nodup (cfg : Config) (g : Graph) (action : Option Role) :
    ∀ (frontier : List Role) (st : List Role × List Role),
      st.1.Nodup → ((passFold cfg g action frontier st).1).Nodup
  | [], _, h => h
  | f :: fs, st, h => by
    rw [passFold, List.foldl_cons]
    have ih := passFold_nodup cfg g action fs ((candidates cfg g action f).foldl addIfNotPresent st)
    rw [passFold] at ih
    exact ih (addFold_nodup _ st h)

/-! ## The reference closure -/

theorem Reach.mem_of_closed {cand : Role → List Role} {base L : List Role}
    (hb : ∀ b ∈ base, b ∈ L) (hc : ∀ r ∈ L, ∀ x ∈ cand r, x ∈ L) :
    ∀ {x : Role}, Reach cand base x → x ∈ L := by
  intro x h
  induction h with
  | base hm => exact hb _ hm
  | step _ hm ih => exact hc _ ih _ hm

theorem Reach.congr {cand1 cand2 : Role → List Role} {base : List Role}
    (h : ∀ r x, x ∈ cand1 r ↔ x ∈ cand2 r) :
    ∀ {x : Role}, Reach cand1 base x → Reach cand2 base x := by
  intro x hx
  induction hx with
  | base hm => exact Reach.base hm
  | step _ hm ih => exact Reach.step ih ((h _ _).mp hm)

/-! ## Correctness of the closure loop -/

theorem calcLoop_spec (cfg : Config) (g : Graph) (action : Option Role)
    (base : List Role) :
    ∀ (fuel : Nat) (roles frontier S : List Role),
      (∀ x ∈ frontier, x ∈ roles) →
      roles.Nodup →
      (∀ x ∈ roles, Reach (candidates cfg g action) base x) →
      (∀ b ∈ base, b ∈ roles) →
      (∀ r ∈ roles, r ∉ frontier → ∀ x ∈ candidates cfg g action r, x ∈ roles) →
      calcLoop cfg g action fuel roles frontier = Except.ok S →
      S.Nodup ∧ ∀ x, x ∈ S ↔ Reach (candidates cfg g action) base x := by
  intro fuel
  induction fuel with
  | zero =>
    intro roles frontier S hsub hnd hsound hbase hclosed h
    cases frontier with
    | nil =>
      rw [calcLoop] at h
      cases h
      refine ⟨hnd, fun x => ⟨hsound x, ?_⟩⟩
      intro hx
      exact hx.mem_of_closed hbase (fun r hr => hclosed r hr (by simp)) 
    | cons f fs => rw [calcLoop] at h; cases h
  | succ fuel ih =>
    intro roles frontier S hsub hnd hsound hbase hclosed h
    cases frontier with
    | nil =>
      rw [calcLoop] at h
      cases h
      refine ⟨hnd, fun x => ⟨hsound x, ?_⟩⟩
      intro hx
      exact hx.mem_of_closed hbase (fun r hr => hclosed r hr (by simp))
    | cons f fs =>
      rw [calcLoop] at h
      obtain ⟨d, hd⟩ := passFold_shape cfg g action (f :: fs) (roles, [])
      set st := passFold cfg g action (f :: fs) (roles, []) with hst
      have h1 : st.1 = roles ++ d := by rw [hd]
      have h2 : st.2 = d := by rw [hd]; simp
      have hndS : st.1.Nodup := passFold_nodup cfg g action (f :: fs) (roles, []) hnd
      refine ih st.1 st.2 S ?_ hndS ?_ ?_ ?_ h
      · -- new frontier is contained in the new roles
        intro x hx
        rw [h1]
        rw [h2] at hx
        exact List.mem_append_right _ hx
      · -- soundness of the new roles
        intro x hx
        rcases (passFold_mem cfg g action x (f :: fs) (roles, [])).mp hx with h3 | ⟨r, h3, h4⟩
        · exact hsound x h3
        · exact Reach.step (hsound r (hsub r h3)) h4
      · -- base still included
        intro b hb
        rw [h1]
        exact List.mem_append_left _ (hbase b hb)
      · -- all non-frontier roles are closed
        intro r hr hrf x hx
        rw [h2] at hrf
        have hroles : r ∈ roles := by
          rw [h1] at hr
          rcases List.mem_append.mp hr with h3 | h3
          · exact h3
          · exact absurd h3 hrf
        by_cases hfr : r ∈ f :: fs
        · exact (passFold_mem cfg g action x (f :: fs) (roles, [])).mpr
            (Or.inr ⟨r, hfr, hx⟩)
        · rw [h1]
          exact List.mem_append_left _ (hclosed r hroles hfr x hx)

end RolesCalc

namespace RolesCalc

/-! ## Characterization of `calcParentRolesSet` -/

theorem initRoles_mem (cfg : Config) (role x : Role) :
    x ∈ initRoles cfg role ↔ x = role ∨ x ∈ cfg.alwaysAllow := by
  rw [initRoles]
  by_cases hr : role ∈ rolesToSet cfg.alwaysAllow
  · rw [if_pos hr, rolesToSet_mem]
    constructor
    · exact Or.inr
    · rintro (h | h)
      · exact h ▸ (rolesToSet_mem role _).mp hr
      · exact h
  · rw [if_neg hr]
    simp only [List.mem_append, List.mem_singleton, rolesToSet_mem]
    tauto

theorem initRoles_nodup (cfg : Config) (role : Role) :
    (initRoles cfg role).Nodup := by
  rw [initRoles]
  by_cases hr : role ∈ rolesToSet cfg.alwaysAllow
  · rw [if_pos hr]
    exact rolesToSet_nodup _
  · rw [if_neg hr]
    simpa [List.nodup_append] using ⟨rolesToSet_nodup _, hr⟩

theorem calcParentRolesSet_spec (cfg : Config) (g : Graph) (role : Role)
    (S : List Role) (h : calcParentRolesSet cfg g role = Except.ok S) :
    S.Nodup ∧ role ∉ S ∧
      ∀ x, x ∈ S ↔
        (Reach (candidates cfg g (queryAction cfg role)) (role :: cfg.alwaysAllow) x ∧
          x ≠ role) := by
  rw [calcParentRolesSet] at h
  cases heq : calcLoop cfg g (queryAction cfg role) (INHERITANCE_DEPTH_LIMIT + 1)
      (initRoles cfg role) (initRoles cfg role) with
  | error e => rw [heq] at h; cases h
  | ok roles =>
    rw [heq] at h
    have hS : S = roles.erase role := by
      cases h; rfl
    subst hS
    have hsound : ∀ x ∈ initRoles cfg role,
        Reach (candidates cfg g (queryAction cfg role)) (role :: cfg.alwaysAllow) x := by
      intro x hx
      rcases (initRoles_mem cfg role x).mp hx with h1 | h1
      · exact Reach.base (h1 ▸ List.mem_cons_self _ _)
      · exact Reach.base (List.mem_cons_of_mem _ h1)
    have hbase : ∀ b ∈ role :: cfg.alwaysAllow, b ∈ initRoles cfg role := by
      intro b hb
      rcases List.mem_cons.mp hb with h1 | h1
      · exact (initRoles_mem cfg role b).mpr (Or.inl h1)
      · exact (initRoles_mem cfg role b).mpr (Or.inr h1)
    obtain ⟨hnd, hmem⟩ := calcLoop_spec cfg g (queryAction cfg role)
      (role :: cfg.alwaysAllow) (INHERITANCE_DEPTH_LIMIT + 1)
      (initRoles cfg role) (initRoles cfg role) roles
      (fun x hx => hx) (initRoles_nodup cfg role) hsound hbase
      (fun r hr hrf => absurd hr hrf) heq
    refine ⟨hnd.erase role, hnd.not_mem_erase, fun x => ?_⟩
    rw [hnd.mem_erase_iff, hmem]
    tauto

theorem calcParentRolesSet_not_self (cfg : Config) (g : Graph) (role : Role)
    (S : List Role) (h : calcParentRolesSet cfg g role = Except.ok S) : role ∉ S :=
  (calcParentRolesSet_spec cfg g role S h).2.1

theorem calcParentRolesSet_alwaysAllow (cfg : Config) (g : Graph) (role : Role)
    (S : List Role) (h : calcParentRolesSet cfg g role = Except.ok S)
    (r : Role) (hr : r ∈ cfg.alwaysAllow) (hne : r ≠ role) : r ∈ S :=
  ((calcParentRolesSet_spec cfg g role S h).2.2 r).mpr
    ⟨Reach.base (List.mem_cons_of_mem _ hr), hne⟩

end RolesCalc

namespace RolesCalc

/-! ## The candidate rules, reorganized -/

theorem mem_candidates_iff (cfg : Config) (g : Graph) (action : Option Role) (r x : Role) :
    x ∈ candidates cfg g action r ↔ x ∈ refCandidates cfg g action r := by
  cases action with
  | none => simp [candidates, refCandidates]
  | some a =>
    simp only [candidates, refCandidates, List.mem_append, List.mem_flatMap,
      List.mem_cons, List.mem_map, List.mem_filter]
    constructor
    · rintro (h | ⟨p, hp, h1 | h1⟩)
      · exact Or.inl (Or.inl h)
      · exact Or.inl (Or.inr (h1 ▸ hp))
      · by_cases hn : (toResourceAndAction cfg p).isNone
        · rw [if_pos hn] at h1
          rcases List.mem_singleton.mp h1 with h2
          exact Or.inr ⟨p, ⟨hp, hn⟩, h2.symm⟩
        · rw [if_neg hn] at h1
          cases h1
    · rintro ((h | h) | ⟨p, ⟨hp, hn⟩, h1⟩)
      · exact Or.inl h
      · exact Or.inr ⟨x, h, Or.inl rfl⟩
      · refine Or.inr ⟨p, hp, Or.inr ?_⟩
        rw [if_pos hn]
        exact List.mem_singleton.mpr h1.symm

/-- C1 (amended): for every configuration, declared edges and query role `q`
    whose closure computation reaches a fixed point within the depth limit,
    `getParentRolesSet q` equals the reference closure obtained from the
    always-allow set together with `q` by repeatedly adding (a) the roles of
    the two resource/action generalization rules, (b) the roles declared to
    extend a member, and (c) — when `q` is compound with action `A` and a
    member `r` (compound or not) has a plain declared parent `p` — the
    compound role `p<sep>A`; with `q` itself removed at the fixed point.
    (The claim's additional requirement that `r` be plain in rule (c) is not
    checked by the code; see `C1_counterexample`.) -/
theorem C1_closure_equals_reference (cfg : Config) (g : Graph) (q : Role)
    (S : List Role) (h : getParentRolesSet cfg g q = Except.ok S) :
    ∀ x, x ∈ S ↔
      (Reach (refCandidates cfg g (queryAction cfg q)) (q :: cfg.alwaysAllow) x ∧
        x ≠ q) := by
  have hs := calcParentRolesSet_spec cfg g q S h
  intro x
  rw [hs.2.2 x]
  constructor
  · rintro ⟨h1, h2⟩
    exact ⟨h1.congr (fun r y => mem_candidates_iff cfg g _ r y), h2⟩
  · rintro ⟨h1, h2⟩
    exact ⟨h1.congr (fun r y => (mem_candidates_iff cfg g _ r y).symm), h2⟩

/-- Witness for `C1_closure_equals_reference`: the manager/employee graph
    under the default configuration, evaluated at the member `manager` of the
    computed closure of `employee`. -/
theorem C1_witness :
    "manager".toList ∈ ["manager".toList] ↔
      (Reach
        (refCandidates defaultConfig gManagerEmployee
          (queryAction defaultConfig "employee".toList))
        ("employee".toList :: defaultConfig.alwaysAllow) "manager".toList ∧
        "manager".toList ≠ "employee".toList) :=
  C1_closure_equals_reference defaultConfig gManagerEmployee "employee".toList
    ["manager".toList] rfl "manager".toList

/-- Counterexample to claim C1 as stated: with resource/action mode on, the
    single edge `role('p').extends('x:y')` and the query `x:y`, the code's
    closure contains `p:y` (the cross-inference rule fires although the base
    role `x:y` is compound), while the claim's reference closure — whose rule
    (c) requires the already-obtained role to be plain — cannot derive it. -/
theorem C1_counterexample :
    getParentRolesSet cfgResourceOnly gCrossC1 "x:y".toList = Except.ok closureC1 ∧
    "p:y".toList ∈ closureC1 ∧ "p:y".toList ≠ "x:y".toList ∧
    ¬ Reach
        (refCandidatesSpecC1 cfgResourceOnly gCrossC1
          (queryAction cfgResourceOnly "x:y".toList))
        ("x:y".toList :: cfgResourceOnly.alwaysAllow) "p:y".toList := by
  refine ⟨rfl, by decide, by decide, ?_⟩
  intro hr
  have hmem := hr.mem_of_closed (L := specClosedC1) (by decide) (by decide)
  exact absurd hmem (by decide)

end RolesCalc

namespace RolesCalc

/-- Counterexample to claim C8 as stated: the dot is a permitted separator
    (the constructor accepts it), yet because it reaches the RegExp unescaped
    the built pattern is `^([^.]+).([^.]+)$`, whose middle atom matches any
    character: the role `axb`, which contains no occurrence of the separator
    at all, decomposes into `(a, b)` instead of being treated as plain. -/
theorem C8_counterexample :
    mkRolesCalc [] true false (some ['.']) =
        Except.ok ⟨[], true, false, '.'⟩ ∧
    jsDotMatchResourceAction "axb".toList = some ("a".toList, "b".toList) ∧
    '.' ∉ "axb".toList ∧
    ¬ ∃ r a, "axb".toList = r ++ '.' :: a ∧ r ≠ [] ∧ a ≠ [] ∧
      '.' ∉ r ∧ '.' ∉ a := by
  refine ⟨rfl, rfl, by decide, ?_⟩
  rintro ⟨r, a, hform, -, -, -, -⟩
  have hdot : '.' ∈ "axb".toList := by
    rw [hform]
    simp
  exact absurd hdot (by decide)

/-- C8 (amended): for every permitted single-character separator that the
    regex engine treats as plain text (one outside `regexSpecialChars`), with
    resource/action mode enabled a role decomposes into `(resource, action)`
    exactly when it has the form `resource ++ sep ++ action` with both
    segments non-empty and free of the separator; every other role (no
    separator occurrence, more than one, or an empty segment) is treated as
    plain.  (A metacharacter separator is interpolated unescaped and follows
    the regex grammar instead; see `C8_counterexample`.) -/
theorem C8_separator_decomposition (aa : List Role) (wer : Bool) (sep : Char)
    (hsep : sep ∉ regexSpecialChars)
    (cfg : Config) (h : mkRolesCalc aa true wer (some [sep]) = Except.ok cfg) :
    ∀ role r a,
      (toResourceAndAction cfg role = some (r, a) ↔
        (role = r ++ sep :: a ∧ r ≠ [] ∧ a ≠ [] ∧ sep ∉ r ∧ sep ∉ a)) ∧
      (toResourceAndAction cfg role = none ↔
        ¬ ∃ r' a', role = r' ++ sep :: a' ∧ r' ≠ [] ∧ a' ≠ [] ∧ sep ∉ r' ∧ sep ∉ a') := by
  have hcfg : cfg = ⟨aa, true, wer, sep⟩ := by
    rw [mkRolesCalc] at h
    by_cases h1 : utf16Length [sep] ≠ 1
    · rw [if_pos h1] at h
      cases h
    · rw [if_neg h1] at h
      by_cases h2 : sep ∈ regexBreakingSeps
      · rw [if_pos h2] at h
        cases h
      · rw [if_neg h2] at h
        cases h
        rfl
  subst hcfg
  intro role r a
  have hmain : ∀ r' a',
      toResourceAndAction ⟨aa, true, wer, sep⟩ role = some (r', a') ↔
        (role = r' ++ sep :: a' ∧ r' ≠ [] ∧ a' ≠ [] ∧ sep ∉ r' ∧ sep ∉ a') := by
    intro r' a'
    have ht : toResourceAndAction ⟨aa, true, wer, sep⟩ role =
        matchResourceAction sep role := rfl
    rw [ht]
    exact matchResourceAction_eq_some sep role r' a'
  refine ⟨hmain r a, ?_⟩
  cases ht : toResourceAndAction ⟨aa, true, wer, sep⟩ role with
  | none =>
    constructor
    · rintro - ⟨r', a', hform⟩
      have h2 := (hmain r' a').mpr hform
      rw [ht] at h2
      cases h2
    · exact fun _ => rfl
  | some pair =>
    obtain ⟨r', a'⟩ := pair
    constructor
    · intro hc; cases hc
    · intro hno
      exact absurd ⟨r', a', (hmain r' a').mp ht⟩ hno

/-- Witness for `C8_separator_decomposition`: the regex-literal separator `:`
    and the role `foo:bar`. -/
theorem C8_witness :
    (toResourceAndAction cfgResourceOnly "foo:bar".toList =
        some ("foo".toList, "bar".toList) ↔
      ("foo:bar".toList = "foo".toList ++ ':' :: "bar".toList ∧ "foo".toList ≠ [] ∧
        "bar".toList ≠ [] ∧ ':' ∉ "foo".toList ∧ ':' ∉ "bar".toList)) ∧
    (toResourceAndAction cfgResourceOnly "foo:bar".toList = none ↔
      ¬ ∃ r' a', "foo:bar".toList = r' ++ ':' :: a' ∧ r' ≠ [] ∧ a' ≠ [] ∧
        ':' ∉ r' ∧ ':' ∉ a') :=
  C8_separator_decomposition [] false ':' (by decide) cfgResourceOnly rfl
    "foo:bar".toList "foo".toList "bar".toList

end RolesCalc

namespace RolesCalc

/-! ## Authorization evaluation -/

theorem isAuthorizedSingle_ok (cfg : Config) (g : Graph) (required : Role)
    (actual : List Role) (S : List Role)
    (h : calcParentRolesSet cfg g required = Except.ok S) :
    isAuthorizedSingle cfg g required actual =
      Except.ok (actual.any (fun x => decide (x = required ∨ x ∈ S))) := by
  unfold isAuthorizedSingle getParentRolesSet
  rw [h]

theorem isAuthorizedSingle_true_iff (cfg : Config) (g : Graph) (required : Role)
    (actual : List Role) (S : List Role)
    (h : calcParentRolesSet cfg g required = Except.ok S) (b : Bool)
    (hb : isAuthorizedSingle cfg g required actual = Except.ok b) :
    b = true ↔ ∃ x ∈ actual, x = required ∨ x ∈ S := by
  rw [isAuthorizedSingle_ok cfg g required actual S h] at hb
  cases hb
  simp [List.any_eq_true]

/-- Counterexample to claim C2 as stated: with only `writeExtendsRead` enabled
    (and `resourceActions` left at its default, off), the required role
    `foo:read` is NOT decomposed at all, so `foo:write` does not satisfy it —
    the call returns `false`, not `true`. -/
theorem C2_counterexample :
    isAuthorizedSingle cfgWriteOnly [] "foo:read".toList ["foo:write".toList] =
      Except.ok false := rfl

/-- C2 (amended): rule B additionally requires `resourceActions`: with both
    `resourceActions` and `writeExtendsRead` enabled,
    `isAuthorized(required="foo:read", actual="foo:write")` returns true; with
    `writeExtendsRead` disabled it returns false (whether or not
    `resourceActions` is enabled); and with `writeExtendsRead` enabled but
    `resourceActions` disabled it also returns false. -/
theorem C2_write_extends_read :
    isAuthorizedSingle cfgResourceWrite [] "foo:read".toList ["foo:write".toList] =
        Except.ok true ∧
    isAuthorizedSingle cfgResourceOnly [] "foo:read".toList ["foo:write".toList] =
        Except.ok false ∧
    isAuthorizedSingle defaultConfig [] "foo:read".toList ["foo:write".toList] =
        Except.ok false ∧
    isAuthorizedSingle cfgWriteOnly [] "foo:read".toList ["foo:write".toList] =
        Except.ok false :=
  ⟨rfl, rfl, rfl, rfl⟩

/-- C4: when `required` is a single role, `isAuthorized` is true iff some
    actual role equals it exactly or lies in its closure; when `required` is a
    collection, true iff that condition holds for every member (AND over
    required roles, OR over held roles). -/
theorem C4_and_or_semantics :
    (∀ (cfg : Config) (g : Graph) (required : Role) (actual S : List Role),
      calcParentRolesSet cfg g required = Except.ok S →
      ∃ b, isAuthorizedSingle cfg g required actual = Except.ok b ∧
        (b = true ↔ ∃ x ∈ actual, x = required ∨ x ∈ S)) ∧
    (∀ (cfg : Config) (g : Graph) (required actual : List Role),
      (∀ r ∈ required, ∃ S, calcParentRolesSet cfg g r = Except.ok S) →
      ∃ b, isAuthorizedMulti cfg g required actual = Except.ok b ∧
        (b = true ↔ ∀ r ∈ required, ∃ x ∈ actual,
          x = r ∨ ∃ S, calcParentRolesSet cfg g r = Except.ok S ∧ x ∈ S)) := by
  constructor
  · intro cfg g required actual S h
    refine ⟨_, isAuthorizedSingle_ok cfg g required actual S h, ?_⟩
    simp [List.any_eq_true]
  · intro cfg g required actual hall
    induction required with
    | nil => exact ⟨true, rfl, by simp⟩
    | cons r rest ih =>
      obtain ⟨S, hS⟩ := hall r (List.mem_cons_self _ _)
      obtain ⟨b, hb, hiff⟩ := ih (fun r' hr' => hall r' (List.mem_cons_of_mem _ hr'))
      by_cases hone : (actual.any (fun x => decide (x = r ∨ x ∈ S))) = true
      · have hstep : isAuthorizedMulti cfg g (r :: rest) actual =
            isAuthorizedMulti cfg g rest actual := by
          rw [isAuthorizedMulti, isAuthorizedSingle_ok cfg g r actual S hS, hone]
        refine ⟨b, hstep ▸ hb, ?_⟩
        rw [hiff]
        constructor
        · intro hrest r' hr'
          rcases List.mem_cons.mp hr' with h1 | h1
          · subst h1
            obtain ⟨x, hx, hcase⟩ := (by simpa [List.any_eq_true] using hone :
              ∃ x ∈ actual, x = r' ∨ x ∈ S)
            rcases hcase with h2 | h2
            · exact ⟨x, hx, Or.inl h2⟩
            · exact ⟨x, hx, Or.inr ⟨S, hS, h2⟩⟩
          · exact hrest r' h1
        · intro hallreq r' hr'
          exact hallreq r' (List.mem_cons_of_mem _ hr')
      · have hfalse : (actual.any (fun x => decide (x = r ∨ x ∈ S))) = false :=
          Bool.eq_false_iff.mpr hone
        have hstep : isAuthorizedMulti cfg g (r :: rest) actual = Except.ok false := by
          rw [isAuthorizedMulti, isAuthorizedSingle_ok cfg g r actual S hS, hfalse]
        refine ⟨false, hstep, ?_⟩
        constructor
        · intro hc; cases hc
        · intro hallreq
          obtain ⟨x, hx, hcase⟩ := hallreq r (List.mem_cons_self _ _)
          refine absurd ?_ hone
          simp only [List.any_eq_true, decide_eq_true_eq]
          refine ⟨x, hx, ?_⟩
          rcases hcase with h1 | ⟨S', hS', h2⟩
          · exact Or.inl h1
          · have : S' = S := by
              rw [hS] at hS'
              cases hS'
              rfl
            exact Or.inr (this ▸ h2)

/-- Witness for `C4_and_or_semantics`: the AND/OR example of the spec,
    `required = [foo, bar]`, `actual = [foo, baz]`, on an empty graph. -/
theorem C4_witness :
    ∃ b, isAuthorizedMulti defaultConfig [] ["foo".toList, "bar".toList]
        ["foo".toList, "baz".toList] = Except.ok b ∧
      (b = true ↔ ∀ r ∈ ["foo".toList, "bar".toList],
        ∃ x ∈ ["foo".toList, "baz".toList],
          x = r ∨ ∃ S, calcParentRolesSet defaultConfig [] r = Except.ok S ∧ x ∈ S) :=
  C4_and_or_semantics.2 defaultConfig [] ["foo".toList, "bar".toList]
    ["foo".toList, "baz".toList]
    (by
      intro r hr
      rcases List.mem_cons.mp hr with h1 | h1
      · exact ⟨[], by rw [h1]; rfl⟩
      · rcases List.mem_singleton.mp h1 with h2
        exact ⟨[], by rw [h2]; rfl⟩)

/-- C5: every role `r` in the configured always-allow set satisfies every
    required role whose closure computation succeeds, and `getParentRolesSet r`
    does not contain `r` itself even though `r` is always-allowed. -/
theorem C5_always_allow (cfg : Config) (g : Graph) (r x : Role)
    (hr : r ∈ cfg.alwaysAllow) (S : List Role)
    (hx : calcParentRolesSet cfg g x = Except.ok S) :
    isAuthorizedSingle cfg g x [r] = Except.ok true ∧
      ∀ T, getParentRolesSet cfg g r = Except.ok T → r ∉ T := by
  constructor
  · rw [isAuthorizedSingle_ok cfg g x [r] S hx]
    by_cases heq : r = x
    · simp [heq]
    · have hmem : r ∈ S := calcParentRolesSet_alwaysAllow cfg g x S hx r hr heq
      simp [hmem]
  · intro T hT
    exact calcParentRolesSet_not_self cfg g r T hT

/-- Witness for `C5_always_allow`: `alwaysAllow = [admin]`, empty graph,
    required role `foo`. -/
theorem C5_witness :
    isAuthorizedSingle cfgAdmin [] "foo".toList ["admin".toList] = Except.ok true ∧
      "admin".toList ∉ ([] : List Role) := by
  have h := C5_always_allow cfgAdmin [] "admin".toList "foo".toList (by decide)
    ["admin".toList] rfl
  exact ⟨h.1, h.2 [] rfl⟩

/-- C7: declaring the same inheritance edge twice leaves the engine in the
    same state as declaring it once, so every closure lookup and every
    authorization query afterwards gives identical results. -/
theorem C7_idempotent_edge (st : EngineState) (child parent : Role) (cfg : Config) :
    declareEdge (declareEdge st child parent) child parent =
        declareEdge st child parent ∧
    (∀ q, getParentRolesSetCached cfg
        (declareEdge (declareEdge st child parent) child parent) q =
      getParentRolesSetCached cfg (declareEdge st child parent) q) ∧
    (∀ required actual, isAuthorizedMulti cfg
        (declareEdge (declareEdge st child parent) child parent).graph required actual =
      isAuthorizedMulti cfg (declareEdge st child parent).graph required actual) := by
  have h : declareEdge (declareEdge st child parent) child parent =
      declareEdge st child parent := by
    by_cases hmem : (child, parent) ∈ st.graph
    · simp [declareEdge, hmem]
    · simp [declareEdge, hmem]
  exact ⟨h, fun q => by rw [h], fun required actual => by rw [h]⟩

/-- C9: a depth-limit error during a cached closure lookup leaves the engine
    state unchanged: the edges are untouched, no cache entry is stored for the
    failing role, the identical query fails identically, and every query on
    the resulting state agrees with the original state. -/
theorem C9_error_no_state_change (cfg : Config) (st : EngineState) (role : Role)
    (e : String) (st' : EngineState)
    (h : getParentRolesSetCached cfg st role = (Except.error e, st')) :
    st' = st ∧ cacheLookup st.cache role = none ∧
      getParentRolesSetCached cfg st' role = (Except.error e, st') ∧
      ∀ q, getParentRolesSetCached cfg st' q = getParentRolesSetCached cfg st q := by
  rw [getParentRolesSetCached] at h
  cases hc : cacheLookup st.cache role with
  | some p =>
    rw [hc] at h
    cases h
  | none =>
    rw [hc] at h
    cases hcalc : calcParentRolesSet cfg st.graph role with
    | ok p =>
      rw [hcalc] at h
      cases h
    | error e' =>
      rw [hcalc] at h
      injection h with h1 h2
      injection h1 with h1
      subst h2
      subst h1
      refine ⟨rfl, rfl, ?_, fun q => rfl⟩
      rw [getParentRolesSetCached, hc, hcalc]

/-- Witness for `C9_error_no_state_change`: a fresh engine holding a chain of
    21 extension edges; querying the bottom of the chain raises the
    depth-limit error. -/
theorem C9_witness :
    getParentRolesSetCached defaultConfig ⟨chain 21, []⟩ (lvl 0) =
        (Except.error depthLimitError, (⟨chain 21, []⟩ : EngineState)) ∧
      cacheLookup (EngineState.mk (chain 21) []).cache (lvl 0) = none := by
  have h := C9_error_no_state_change defaultConfig ⟨chain 21, []⟩ (lvl 0)
    depthLimitError ⟨chain 21, []⟩ rfl
  exact ⟨h.2.2.1, h.2.1⟩

end RolesCalc

namespace RolesCalc

/-! ## Pruning -/

theorem getParentRolesSet_eq (cfg : Config) (g : Graph) (role : Role) :
    getParentRolesSet cfg g role = calcParentRolesSet cfg g role := rfl

theorem pruneAux_eq_spec (cfg : Config) (g : Graph) :
    ∀ (rest kept : List Role), pruneAux cfg g kept rest = pruneSpecAux cfg g kept rest
  | [], kept => rfl
  | c :: rest, kept => by
    rw [pruneAux, pruneSpecAux]
    cases hS : getParentRolesSet cfg g c with
    | error e => rfl
    | ok S =>
      dsimp only
      have hnotself : c ∉ S := calcParentRolesSet_not_self cfg g c S hS
      have hcond : (S.any (fun p => decide (p ∈ kept ++ c :: rest))) =
          (S.any (fun p => decide (p ∈ (kept ++ c :: rest).erase c))) := by
        refine Bool.eq_iff_iff.mpr ?_
        simp only [List.any_eq_true, decide_eq_true_eq]
        constructor
        · rintro ⟨p, hp, hmem⟩
          refine ⟨p, hp, ?_⟩
          rw [List.mem_erase_of_ne (fun hpc : p = c => hnotself (hpc ▸ hp))]
          exact hmem
        · rintro ⟨p, hp, hmem⟩
          refine ⟨p, hp, ?_⟩
          rw [List.mem_erase_of_ne (fun hpc : p = c => hnotself (hpc ▸ hp))] at hmem
          exact hmem
      rw [hcond]
      by_cases hb : (S.any (fun p => decide (p ∈ (kept ++ c :: rest).erase c))) = true
      · rw [if_pos hb, if_pos hb]
        exact pruneAux_eq_spec cfg g rest kept
      · rw [if_neg hb, if_neg hb]
        exact pruneAux_eq_spec cfg g rest (kept ++ [c])

theorem pruneAux_ok_sublist (cfg : Config) (g : Graph) :
    ∀ (rest kept L : List Role), pruneAux cfg g kept rest = Except.ok L →
      ∃ d, L = kept ++ d ∧ d.Sublist rest
  | [], kept, L, h => by
    rw [pruneAux] at h
    cases h
    exact ⟨[], by simp, List.Sublist.refl []⟩
  | c :: rest, kept, L, h => by
    rw [pruneAux] at h
    cases hS : getParentRolesSet cfg g c with
    | error e => rw [hS] at h; cases h
    | ok S =>
      rw [hS] at h
      dsimp only at h
      by_cases hb : (S.any (fun p => decide (p ∈ kept ++ c :: rest))) = true
      · rw [if_pos hb] at h
        obtain ⟨d, hd, hsub⟩ := pruneAux_ok_sublist cfg g rest kept L h
        exact ⟨d, hd, hsub.cons c⟩
      · rw [if_neg hb] at h
        obtain ⟨d, hd, hsub⟩ := pruneAux_ok_sublist cfg g rest (kept ++ [c]) L h
        refine ⟨c :: d, ?_, hsub.cons₂ c⟩
        rw [hd]
        simp

theorem pruneAux_total (cfg : Config) (g : Graph) :
    ∀ (rest kept : List Role),
      (∀ r ∈ rest, ∃ S, calcParentRolesSet cfg g r = Except.ok S) →
      ∃ d, pruneAux cfg g kept rest = Except.ok (kept ++ d) ∧ d.Sublist rest ∧
        (kept = [] → rest ≠ [] → kept ++ d ≠ [])
  | [], kept, _ => ⟨[], by rw [pruneAux]; simp, List.Sublist.refl [], fun _ h => absurd rfl h⟩
  | c :: rest, kept, hall => by
    obtain ⟨S, hS⟩ := hall c (List.mem_cons_self _ _)
    have hnotself : c ∉ S := calcParentRolesSet_not_self cfg g c S hS
    rw [pruneAux, getParentRolesSet_eq, hS]
    dsimp only
    by_cases hb : (S.any (fun p => decide (p ∈ kept ++ c :: rest))) = true
    · rw [if_pos hb]
      obtain ⟨d, hok, hsub, hne⟩ :=
        pruneAux_total cfg g rest kept (fun r hr => hall r (List.mem_cons_of_mem _ hr))
      refine ⟨d, hok, hsub.cons c, ?_⟩
      intro hkept _
      cases hrest : rest with
      | cons r rs => exact hne hkept (by simp [hrest])
      | nil =>
        exfalso
        subst hkept
        subst hrest
        obtain ⟨p, hp, hmem⟩ := by
          simpa only [List.any_eq_true, decide_eq_true_eq] using hb
        rcases List.mem_singleton.mp (by simpa using hmem) with h1
        exact hnotself (h1 ▸ hp)
    · rw [if_neg hb]
      obtain ⟨d, hok, hsub, _⟩ := pruneAux_total cfg g rest (kept ++ [c])
        (fun r hr => hall r (List.mem_cons_of_mem _ hr))
      refine ⟨c :: d, ?_, hsub.cons₂ c, ?_⟩
      · rw [hok]
        simp
      · intro hkept _
        subst hkept
        simp

end RolesCalc

namespace RolesCalc

/-- C6: with `manager extends employee`,
    `pruneRedundantRoles [employee, manager, owner-unrelated]` equals
    `[manager, owner-unrelated]`; in general the pruning deduplicates its
    input, drops each role whose closure contains some other role still
    present in the pruned collection (as `pruneRedundantRolesSpec` words it),
    and keeps survivors in their original relative order (the result is a
    sublist of the deduplicated input). -/
theorem C6_prune_redundant :
    pruneRedundantRoles defaultConfig gManagerEmployee pruneInputC6 =
        Except.ok pruneOutputC6 ∧
    (∀ (cfg : Config) (g : Graph) (roles : List Role),
      pruneRedundantRoles cfg g roles = pruneRedundantRolesSpec cfg g roles) ∧
    (∀ (cfg : Config) (g : Graph) (roles L : List Role),
      pruneRedundantRoles cfg g roles = Except.ok L →
        L.Sublist (rolesToSet roles)) := by
  refine ⟨rfl, ?_, ?_⟩
  · intro cfg g roles
    exact pruneAux_eq_spec cfg g (rolesToSet roles) []
  · intro cfg g roles L h
    obtain ⟨d, hd, hsub⟩ := pruneAux_ok_sublist cfg g (rolesToSet roles) [] L h
    rw [hd]
    simpa using hsub

/-- Witness for `C6_prune_redundant`: the order-stability part at the concrete
    manager/employee instance. -/
theorem C6_witness : pruneOutputC6.Sublist (rolesToSet pruneInputC6) :=
  C6_prune_redundant.2.2 defaultConfig gManagerEmployee pruneInputC6 pruneOutputC6 rfl

/-- C10: whenever every input role's closure computes without error, pruning
    succeeds, returns a sublist of the deduplicated input, and returns a
    non-empty result on non-empty input (even with mutually redundant
    roles, at least one survives). -/
theorem C10_prune_invariants (cfg : Config) (g : Graph) (roles : List Role)
    (h : ∀ r ∈ roles, ∃ S, calcParentRolesSet cfg g r = Except.ok S) :
    ∃ L, pruneRedundantRoles cfg g roles = Except.ok L ∧
      L.Sublist (rolesToSet roles) ∧ (roles ≠ [] → L ≠ []) := by
  obtain ⟨d, hok, hsub, hne⟩ := pruneAux_total cfg g (rolesToSet roles) []
    (fun r hr => h r ((rolesToSet_mem r roles).mp hr))
  refine ⟨d, ?_, hsub, ?_⟩
  · rw [pruneRedundantRoles, hok]
    simp
  · intro hroles
    cases hr : roles with
    | nil => exact absurd hr hroles
    | cons x xs =>
      have hx : x ∈ rolesToSet roles := (rolesToSet_mem x roles).mpr (by rw [hr]; simp)
      have h2 := hne rfl (List.ne_nil_of_mem hx)
      simpa using h2

/-- Witness for `C10_prune_invariants`: the mutually redundant pair `a`, `b`
    (each extends the other). -/
theorem C10_witness :
    ∃ L, pruneRedundantRoles defaultConfig gMutual ["a".toList, "b".toList] =
        Except.ok L ∧
      L.Sublist (rolesToSet ["a".toList, "b".toList]) ∧
      (["a".toList, "b".toList] ≠ ([] : List Role) → L ≠ []) :=
  C10_prune_invariants defaultConfig gMutual ["a".toList, "b".toList]
    (by
      intro r hr
      rcases List.mem_cons.mp hr with h1 | h1
      · exact ⟨["b".toList], by rw [h1]; rfl⟩
      · rcases List.mem_singleton.mp h1 with h2
        exact ⟨["a".toList], by rw [h2]; rfl⟩)

end RolesCalc

namespace RolesCalc

/-! ## Linear chains and the depth limit -/

theorem parentsOf_cons (e : Role × Role) (g : Graph) (c : Role) :
    parentsOf (e :: g) c = if e.1 = c then e.2 :: parentsOf g c else parentsOf g c := by
  by_cases h : e.1 = c <;> simp [parentsOf, List.filter_cons, h]

theorem parentsOf_chainAux (roleOf : Nat → Role) (c : Role) :
    ∀ l : List Nat,
      parentsOf (l.map (fun i => (roleOf i, roleOf (i + 1)))) c =
        (l.filter (fun i => decide (roleOf i = c))).map (fun i => roleOf (i + 1))
  | [] => rfl
  | i :: l => by
    rw [List.map_cons, parentsOf_cons, List.filter_cons, parentsOf_chainAux roleOf c l]
    by_cases h : roleOf i = c
    · simp [h]
    · simp [h]

theorem range_filter_eq (k : Nat) :
    ∀ N : Nat, (List.range N).filter (fun i => decide (i = k)) =
      if k < N then [k] else []
  | 0 => by simp
  | N + 1 => by
    rw [List.range_succ, List.filter_append, range_filter_eq k N]
    by_cases h1 : k < N
    · have h2 : ¬ N = k := by omega
      have h3 : k < N + 1 := by omega
      simp [h1, h2, h3]
    · by_cases h2 : k = N
      · subst h2
        simp [h1]
      · have h3 : ¬ k < N + 1 := by omega
        have h4 : ¬ N = k := fun hNk => h2 hNk.symm
        simp [h1, h3, h4]

theorem parentsOf_chain (roleOf : Nat → Role) (N : Nat)
    (hinj : ∀ i, i ≤ N → ∀ j, j ≤ N → roleOf i = roleOf j → i = j)
    (k : Nat) (hk : k ≤ N) :
    parentsOf (chainOf roleOf N) (roleOf k) =
      if k < N then [roleOf (k + 1)] else [] := by
  rw [chainOf, parentsOf_chainAux]
  have hcong : (List.range N).filter (fun i => decide (roleOf i = roleOf k)) =
      (List.range N).filter (fun i => decide (i = k)) := by
    apply List.filter_congr
    intro i hi
    have hiN : i ≤ N := le_of_lt (List.mem_range.mp hi)
    apply decide_eq_decide.mpr
    constructor
    · exact fun h => hinj i hiN k hk h
    · exact fun h => h ▸ rfl
  rw [hcong, range_filter_eq]
  by_cases h : k < N
  · rw [if_pos h, if_pos h]
    rfl
  · rw [if_neg h, if_neg h]
    rfl

theorem candidates_defaultConfig (g : Graph) (r : Role) :
    candidates defaultConfig g none r = parentsOf g r := by
  simp [candidates, explodeResourceActionRole, toResourceAndAction, defaultConfig]

theorem chainPre_succ (roleOf : Nat → Role) (m : Nat) :
    chainPre roleOf (m + 1) = chainPre roleOf m ++ [roleOf m] := by
  rw [chainPre, chainPre, List.range_succ, List.map_append]
  rfl

theorem mem_chainPre (roleOf : Nat → Role) (m : Nat) (x : Role) :
    x ∈ chainPre roleOf m ↔ ∃ i, i < m ∧ roleOf i = x := by
  simp [chainPre]

theorem chain_pass (roleOf : Nat → Role) (N : Nat)
    (hinj : ∀ i, i ≤ N → ∀ j, j ≤ N → roleOf i = roleOf j → i = j)
    (k : Nat) (hk : k ≤ N) :
    passFold defaultConfig (chainOf roleOf N) none [roleOf k]
        (chainPre roleOf (k + 1), []) =
      if k < N then (chainPre roleOf (k + 2), [roleOf (k + 1)])
      else (chainPre roleOf (k + 1), []) := by
  rw [passFold]
  simp only [List.foldl_cons, List.foldl_nil]
  rw [candidates_defaultConfig, parentsOf_chain roleOf N hinj k hk]
  by_cases h : k < N
  · rw [if_pos h, if_pos h]
    simp only [List.foldl_cons, List.foldl_nil]
    have hmem : roleOf (k + 1) ∉ (chainPre roleOf (k + 1), ([] : List Role)).1 := by
      dsimp only
      rw [mem_chainPre]
      rintro ⟨i, hi, heq⟩
      have : i = k + 1 := hinj i (by omega) (k + 1) (by omega) heq
      omega
    rw [addIfNotPresent, if_neg hmem]
    dsimp only
    rw [← chainPre_succ]
    simp
  · rw [if_neg h, if_neg h]
    simp only [List.foldl_nil]

theorem chain_loop (roleOf : Nat → Role) (N : Nat)
    (hinj : ∀ i, i ≤ N → ∀ j, j ≤ N → roleOf i = roleOf j → i = j) :
    ∀ (fuel k : Nat), k ≤ N →
      calcLoop defaultConfig (chainOf roleOf N) none fuel
          (chainPre roleOf (k + 1)) [roleOf k] =
        if N - k < fuel then Except.ok (chainPre roleOf (N + 1))
        else Except.error depthLimitError
  | 0, k, _ => by
    rw [calcLoop, if_neg (Nat.not_lt_zero _)]
  | fuel + 1, k, hk => by
    rw [calcLoop]
    rw [chain_pass roleOf N hinj k hk]
    by_cases h : k < N
    · rw [if_pos h]
      dsimp only
      rw [chain_loop roleOf N hinj fuel (k + 1) (by omega)]
      by_cases h2 : N - (k + 1) < fuel
      · rw [if_pos h2, if_pos (by omega)]
      · rw [if_neg h2, if_neg (by omega)]
    · rw [if_neg h]
      dsimp only
      rw [calcLoop]
      have hkN : k = N := by omega
      rw [if_pos (by omega), hkN]

theorem chain_calcParentRolesSet (roleOf : Nat → Role) (N : Nat)
    (hinj : ∀ i, i ≤ N → ∀ j, j ≤ N → roleOf i = roleOf j → i = j) :
    calcParentRolesSet defaultConfig (chainOf roleOf N) (roleOf 0) =
      if N < INHERITANCE_DEPTH_LIMIT + 1 then
        Except.ok ((chainPre roleOf (N + 1)).erase (roleOf 0))
      else Except.error depthLimitError := by
  have hloop := chain_loop roleOf N hinj (INHERITANCE_DEPTH_LIMIT + 1) 0 (Nat.zero_le N)
  rw [show chainPre roleOf (0 + 1) = [roleOf 0] from rfl, Nat.sub_zero] at hloop
  rw [calcParentRolesSet,
    show queryAction defaultConfig (roleOf 0) = none from rfl,
    show initRoles defaultConfig (roleOf 0) = [roleOf 0] from rfl,
    hloop]
  by_cases hN : N < INHERITANCE_DEPTH_LIMIT + 1
  · rw [if_pos hN, if_pos hN]
  · rw [if_neg hN, if_neg hN]

theorem isAuthorizedSingle_error (cfg : Config) (g : Graph) (required : Role)
    (actual : List Role) (e : String)
    (h : calcParentRolesSet cfg g required = Except.error e) :
    isAuthorizedSingle cfg g required actual = Except.error e := by
  unfold isAuthorizedSingle getParentRolesSet
  rw [h]

/-- C3: on a linear chain of distinct plain roles in which `roleOf (i+1)` is
    declared to extend `roleOf i` and no other edges exist, with exactly
    `INHERITANCE_DEPTH_LIMIT` (= 20) extension edges the query
    `isAuthorized(required = roleOf 0, actual = roleOf 20)` resolves without
    error and returns true, while with 21 edges the corresponding query raises
    the depth-limit error. -/
theorem C3_depth_bound (roleOf : Nat → Role)
    (hinj : ∀ i, i ≤ INHERITANCE_DEPTH_LIMIT + 1 →
      ∀ j, j ≤ INHERITANCE_DEPTH_LIMIT + 1 → roleOf i = roleOf j → i = j) :
    isAuthorizedSingle defaultConfig (chainOf roleOf INHERITANCE_DEPTH_LIMIT)
        (roleOf 0) [roleOf INHERITANCE_DEPTH_LIMIT] = Except.ok true ∧
    isAuthorizedSingle defaultConfig (chainOf roleOf (INHERITANCE_DEPTH_LIMIT + 1))
        (roleOf 0) [roleOf (INHERITANCE_DEPTH_LIMIT + 1)] =
      Except.error depthLimitError := by
  constructor
  · have hinj20 : ∀ i, i ≤ INHERITANCE_DEPTH_LIMIT →
        ∀ j, j ≤ INHERITANCE_DEPTH_LIMIT → roleOf i = roleOf j → i = j := by
      intro i hi j hj
      exact hinj i (by omega) j (by omega)
    have hcalc := chain_calcParentRolesSet roleOf INHERITANCE_DEPTH_LIMIT hinj20
    rw [if_pos (by omega)] at hcalc
    rw [isAuthorizedSingle_ok defaultConfig _ _ _ _ hcalc]
    have hne : roleOf INHERITANCE_DEPTH_LIMIT ≠ roleOf 0 := by
      intro h
      have h2 := hinj INHERITANCE_DEPTH_LIMIT (by omega) 0 (by omega) h
      rw [INHERITANCE_DEPTH_LIMIT] at h2
      omega
    have hmem : roleOf INHERITANCE_DEPTH_LIMIT ∈
        (chainPre roleOf (INHERITANCE_DEPTH_LIMIT + 1)).erase (roleOf 0) := by
      rw [List.mem_erase_of_ne hne, mem_chainPre]
      exact ⟨INHERITANCE_DEPTH_LIMIT, by omega, rfl⟩
    simp [hmem]
  · have hcalc := chain_calcParentRolesSet roleOf (INHERITANCE_DEPTH_LIMIT + 1) hinj
    rw [if_neg (by omega)] at hcalc
    exact isAuthorizedSingle_error defaultConfig _ _ _ _ hcalc

/-- Witness for `C3_depth_bound`: the concrete chain over single-character
    role names. -/
theorem C3_witness :
    isAuthorizedSingle defaultConfig (chainOf lvl INHERITANCE_DEPTH_LIMIT)
        (lvl 0) [lvl INHERITANCE_DEPTH_LIMIT] = Except.ok true ∧
    isAuthorizedSingle defaultConfig (chainOf lvl (INHERITANCE_DEPTH_LIMIT + 1))
        (lvl 0) [lvl (INHERITANCE_DEPTH_LIMIT + 1)] =
      Except.error depthLimitError :=
  C3_depth_bound lvl (by decide)

end RolesCalc
